import Mathlib

/-!
# Verification of the nanobot admin server (`src/nanobot/admin/server.py`)

Shallow embedding of the view-projection layer of the admin panel:
the auth middleware, the uptime computation and formatting, the session
projections and the bounded filesystem walker.

Modelling conventions:
* Python strings that are inspected character-by-character (auth header,
  decoded credentials, message content, formatted durations) are modelled
  as `List Char` (a Python `str` is a sequence of code points).
* `base64.b64decode` followed by `bytes.decode` is an external stdlib
  call; it is abstracted as a parameter `b64decode : List Char → Option
  (List Char)`, `none` meaning any exception (invalid base64 or invalid
  UTF-8), which the source catches.
* `dict.get` on optional fields is modelled with `Option`.
* The filesystem is modelled as an inductive tree of entries; `iterdir`
  raising `PermissionError` and `stat` raising `OSError` are modelled as
  flags on the corresponding entry.
-/

/-- Outcome of running the aiohttp middleware around a handler: either the
handler ran (producing its response) or the middleware short-circuited with
an error response (`status`, `WWW-Authenticate` header value, body text). -/
inductive MWOutcome (α : Type) where
  | handled (a : α)
  | unauthorized (status : Nat) (wwwAuthenticate : String) (body : String)
  deriving DecidableEq

/-- The characters of the scheme test string `"Basic "` used by
`auth.startswith("Basic ")` in `AdminServer._auth_middleware`. -/
def basicScheme : List Char := ['B', 'a', 's', 'i', 'c', ' ']

/-- `decoded.split(":", 1)` followed by the unpacking `_, pwd = …`:
returns the part before and after the first `':'`, or `none` when the
string has no `':'` (in which case the unpacking raises `ValueError`,
caught by the bare `except` in the source). -/
def splitOnceColon : List Char → Option (List Char × List Char)
  | [] => none
  | c :: cs =>
    if c = ':' then some ([], cs)
    else (splitOnceColon cs).map fun p => (c :: p.1, p.2)

/-- The 401 response built at the end of `AdminServer._auth_middleware`:
`web.Response(status=401, headers={"WWW-Authenticate": 'Basic realm="nanobot admin"'},
text="Unauthorized")`. -/
def unauthorizedResp (α : Type) : MWOutcome α :=
  .unauthorized 401 "Basic realm=\"nanobot admin\"" "Unauthorized"

/-- `AdminServer._auth_middleware`.  `password` is `self.password`,
`authHeader` the request's `Authorization` header (`none` when absent;
`request.headers.get("Authorization", "")` turns that into `""`),
`handler` the wrapped handler's response. -/
def auth_middleware {α : Type} (password : List Char)
    (b64decode : List Char → Option (List Char))
    (authHeader : Option (List Char)) (handler : α) : MWOutcome α :=
  if password = [] then .handled handler
  else
    let auth := authHeader.getD []
    if basicScheme.isPrefixOf auth then
      match b64decode (auth.drop 6) with
      | some decoded =>
        match splitOnceColon decoded with
        | some (_, pwd) => if pwd = password then .handled handler else unauthorizedResp α
        | none => unauthorizedResp α
      | none => unauthorizedResp α
    else unauthorizedResp α

lemma splitOnceColon_eq_none {s : List Char} : splitOnceColon s = none ↔ ':' ∉ s := by
  induction s with
  | nil => simp [splitOnceColon]
  | cons c cs ih =>
    by_cases hc : c = ':'
    · subst hc; simp [splitOnceColon]
    · simp [splitOnceColon, hc, Option.map_eq_none', ih, Ne.symm hc]

lemma splitOnceColon_some_sound : ∀ {s a b : List Char},
    splitOnceColon s = some (a, b) → s = a ++ ':' :: b ∧ ':' ∉ a := by
  intro s
  induction s with
  | nil => intro a b h; simp [splitOnceColon] at h
  | cons c cs ih =>
    intro a b h
    by_cases hc : c = ':'
    · subst hc
      simp [splitOnceColon] at h
      obtain ⟨rfl, rfl⟩ := h
      simp
    · simp [splitOnceColon, hc] at h
      obtain ⟨a', hsp, ha⟩ := h
      obtain ⟨h1, h2⟩ := ih hsp
      rw [← ha]
      simp [h1, h2, Ne.symm hc]

lemma splitOnceColon_append (u b : List Char) (hu : ':' ∉ u) :
    splitOnceColon (u ++ ':' :: b) = some (u, b) := by
  induction u with
  | nil => simp [splitOnceColon]
  | cons x u' ih =>
    simp at hu
    simp [splitOnceColon, Ne.symm hu.1, ih hu.2]

lemma auth_middleware_cases {α : Type} (password : List Char)
    (b64decode : List Char → Option (List Char))
    (authHeader : Option (List Char)) (handler : α) :
    auth_middleware password b64decode authHeader handler = .handled handler ∨
      auth_middleware password b64decode authHeader handler = unauthorizedResp α := by
  simp only [auth_middleware]
  repeat first
  | exact Or.inl rfl
  | exact Or.inr rfl
  | split

/-- C1 — Credential gate: with an empty password every request runs its
handler; with a non-empty password a request runs its handler exactly when
it carries a `Basic` Authorization header whose base64 payload decodes to
`u ++ ":" ++ rest` (no colon in `u`) with `rest` equal to the password; in
every other case the handler does not run and the response is 401 with a
`WWW-Authenticate: Basic` challenge. -/
theorem auth_gate_correct {α : Type} (password : List Char)
    (b64decode : List Char → Option (List Char))
    (authHeader : Option (List Char)) (handler : α) :
    (auth_middleware password b64decode authHeader handler = .handled handler ↔
      password = [] ∨
        (basicScheme.isPrefixOf (authHeader.getD []) ∧
         ∃ decoded u, b64decode ((authHeader.getD []).drop 6) = some decoded ∧
           ':' ∉ u ∧ decoded = u ++ ':' :: password)) ∧
    (auth_middleware password b64decode authHeader handler ≠ .handled handler →
      auth_middleware password b64decode authHeader handler =
        .unauthorized 401 "Basic realm=\"nanobot admin\"" "Unauthorized") := by
  constructor
  · constructor
    · intro h
      by_cases hpw : password = []
      · exact Or.inl hpw
      · refine Or.inr ?_
        simp only [auth_middleware, hpw, if_false] at h
        by_cases hpf : basicScheme.isPrefixOf (authHeader.getD [])
        · refine ⟨hpf, ?_⟩
          rw [if_pos hpf] at h
          cases hb : b64decode ((authHeader.getD []).drop 6) with
          | none => simp only [hb] at h; simp [unauthorizedResp] at h
          | some decoded =>
            simp only [hb] at h
            cases hs : splitOnceColon decoded with
            | none => simp only [hs] at h; simp [unauthorizedResp] at h
            | some p =>
              obtain ⟨u, pwd⟩ := p
              simp only [hs] at h
              by_cases hpp : pwd = password
              · obtain ⟨hdec, hu⟩ := splitOnceColon_some_sound hs
                exact ⟨decoded, u, rfl, hu, by rw [hdec, hpp]⟩
              · simp [hpp, unauthorizedResp] at h
        · rw [if_neg hpf] at h
          simp [unauthorizedResp] at h
    · intro h
      by_cases hpw : password = []
      · simp [auth_middleware, hpw]
      · obtain ⟨hpf, decoded, u, hbd, hu, hdu⟩ := h.resolve_left hpw
        simp only [auth_middleware, hpw, if_false, if_pos hpf, hbd, hdu,
          splitOnceColon_append u password hu]
        simp
  · intro hne
    exact (auth_middleware_cases password b64decode authHeader handler).resolve_left hne

/-- Witness for `auth_gate_correct`: a request with no Authorization header
against password `"pw"` is denied with the 401 challenge. -/
theorem auth_gate_correct_witness :
    auth_middleware ['p', 'w'] (fun _ => none) none (0 : Nat) =
      .unauthorized 401 "Basic realm=\"nanobot admin\"" "Unauthorized" :=
  (auth_gate_correct ['p', 'w'] (fun _ => none) none 0).2 (by decide)

/-- C9 — a Basic header whose payload decodes to a colon-free string is
always denied (the tuple unpacking of `split(":", 1)` raises), even when the
decoded payload is exactly the configured password. -/
theorem auth_no_colon_denied {α : Type} (password : List Char)
    (b64decode : List Char → Option (List Char))
    (authHeader : Option (List Char)) (handler : α) (payload : List Char)
    (hpw : password ≠ [])
    (hdec : b64decode ((authHeader.getD []).drop 6) = some payload)
    (hnc : ':' ∉ payload) :
    auth_middleware password b64decode authHeader handler =
      .unauthorized 401 "Basic realm=\"nanobot admin\"" "Unauthorized" := by
  simp only [auth_middleware, hpw, if_false]
  by_cases hpf : basicScheme.isPrefixOf (authHeader.getD [])
  · rw [if_pos hpf]
    simp only [hdec, splitOnceColon_eq_none.mpr hnc]
    rfl
  · rw [if_neg hpf]
    rfl

/-- Witness for `auth_no_colon_denied`: the payload decodes to exactly the
password `"pw"`, but with no colon the request is still denied. -/
theorem auth_no_colon_denied_witness :
    auth_middleware ['p', 'w'] (fun _ => some ['p', 'w'])
      (some (basicScheme ++ ['Q', 'Q'])) (0 : Nat) =
      .unauthorized 401 "Basic realm=\"nanobot admin\"" "Unauthorized" :=
  auth_no_colon_denied ['p', 'w'] _ _ 0 ['p', 'w'] (by decide) rfl (by decide)

/-- A raw stored message record as consumed by
`AdminServer._handle_session_detail`: each field is read with `dict.get`,
so each may be absent (`none`).  `content` is a Python string, modelled as
a list of code points. -/
structure RawMessage where
  role : Option String
  content : Option (List Char)
  timestamp : Option String
  tools_used : Option (List String)

/-- One element of the `messages` list built by
`AdminServer._handle_session_detail`. -/
structure MessageView where
  role : Option String
  content : List Char
  timestamp : Option String
  tools_used : Option (List String)
  deriving DecidableEq

/-- The external session object: `session.messages`. -/
structure Session where
  messages : List RawMessage

/-- One entry of `session_manager.list_sessions()`; the handler reads it
with `s.get("key", "")`, `s.get("created_at")`, `s.get("updated_at")`. -/
structure IndexEntry where
  key : Option String
  created_at : Option String
  updated_at : Option String

/-- The external session-store collaborator, with the two operations the
admin server calls. -/
structure SessionManager where
  list_sessions : List IndexEntry
  get_or_create : String → Session

/-- One element of the result list of `AdminServer._handle_sessions`. -/
structure SessionSummary where
  key : String
  messages : Nat
  created_at : Option String
  updated_at : Option String

/-- The loop body of `AdminServer._handle_session_detail`:
`{"role": m.get("role"), "content": (m.get("content") or "")[:500], …}`.
(`x or ""` maps both `None` and `""` to `""`, i.e. `Option.getD` on
strings.) -/
def message_view (m : RawMessage) : MessageView :=
  { role := m.role
    content := (m.content.getD []).take 500
    timestamp := m.timestamp
    tools_used := m.tools_used }

/-- `AdminServer._handle_sessions`: result is the HTTP status
(`web.json_response` defaults to 200) and the JSON body. -/
def handle_sessions (mgr : Option SessionManager) : Nat × List SessionSummary :=
  match mgr with
  | none => (200, [])
  | some m =>
    (200, m.list_sessions.map fun s =>
      let key := s.key.getD ""
      let session := m.get_or_create key
      { key := key
        messages := session.messages.length
        created_at := s.created_at
        updated_at := s.updated_at })

/-- Response of `AdminServer._handle_session_detail`: either the 500 error
body `{"error": "no session manager"}` or the 200 body
`{"key": …, "messages": …}`. -/
inductive DetailResponse where
  | error (status : Nat) (message : String)
  | ok (status : Nat) (key : String) (messages : List MessageView)
  deriving DecidableEq

/-- `AdminServer._handle_session_detail`.  `session.messages[-100:]` is the
last 100 elements, i.e. `drop (length - 100)` with truncated subtraction. -/
def handle_session_detail (mgr : Option SessionManager) (key : String) : DetailResponse :=
  match mgr with
  | none => .error 500 "no session manager"
  | some m =>
    let session := m.get_or_create key
    .ok 200 key ((session.messages.drop (session.messages.length - 100)).map message_view)

/-- C2 — Session detail returns the last 100 stored messages in original
relative order (`views[i]` is the projection of message
`length - 100 + i`), with content truncated to at most 500 characters
(`min` of the source length and 500) and missing content treated as the
empty string. -/
theorem session_detail_last100 (mgr : SessionManager) (key : String) :
    ∃ views : List MessageView,
      handle_session_detail (some mgr) key = .ok 200 key views ∧
      views.length = min (mgr.get_or_create key).messages.length 100 ∧
      (∀ i : Nat, views[i]? =
        ((mgr.get_or_create key).messages[(mgr.get_or_create key).messages.length - 100 + i]?).map
          message_view) ∧
      (∀ v ∈ views, v.content.length ≤ 500) ∧
      (∀ m : RawMessage, (message_view m).content.length = min (m.content.getD []).length 500) ∧
      (∀ m : RawMessage, m.content = none → (message_view m).content = []) := by
  refine ⟨_, rfl, ?_, ?_, ?_, ?_, ?_⟩
  · simp [List.length_drop]
    omega
  · intro i
    simp [List.getElem?_drop]
  · intro v hv
    simp only [List.mem_map] at hv
    obtain ⟨m, -, rfl⟩ := hv
    simp [message_view]
  · intro m
    simp only [message_view, List.length_take]
    exact inf_comm 500 _
  · intro m hm
    simp [message_view, hm]

/-- Concrete manager for the witness: every key yields a session of 150
empty messages. -/
def witnessMgr : SessionManager :=
  { list_sessions := []
    get_or_create := fun _ => ⟨List.replicate 150 ⟨none, none, none, none⟩⟩ }

/-- Witness for `session_detail_last100`: a 150-message session projects to
exactly 100 views, and a 10000-character content field truncates to exactly
500 characters. -/
theorem session_detail_last100_witness :
    ∃ views : List MessageView,
      handle_session_detail (some witnessMgr) "k" = .ok 200 "k" views ∧
      views.length = 100 ∧
      (message_view ⟨none, some (List.replicate 10000 'a'), none, none⟩).content.length = 500 := by
  obtain ⟨views, h1, h2, h3, h4, h5, h6⟩ := session_detail_last100 witnessMgr "k"
  refine ⟨views, h1, ?_, ?_⟩
  · rw [h2]
    simp [witnessMgr]
  · rw [h5]
    simp only [Option.getD_some, List.length_replicate]
    rfl

/-- C7 — Session list: with no configured store the response is
`(200, [])`; with a store, the i-th summary's key is the i-th index entry's
key and its message count is the length of the message list of the session
re-fetched via `get_or_create` at that key. -/
theorem sessions_live_count :
    handle_sessions none = (200, []) ∧
    ∀ mgr : SessionManager,
      (handle_sessions (some mgr)).1 = 200 ∧
      (handle_sessions (some mgr)).2.length = mgr.list_sessions.length ∧
      (∀ i : Nat,
        ((handle_sessions (some mgr)).2[i]?).map SessionSummary.messages =
          (mgr.list_sessions[i]?).map fun s =>
            (mgr.get_or_create (s.key.getD "")).messages.length) ∧
      (∀ i : Nat,
        ((handle_sessions (some mgr)).2[i]?).map SessionSummary.key =
          (mgr.list_sessions[i]?).map fun s => s.key.getD "") := by
  refine ⟨rfl, fun mgr => ⟨rfl, ?_, ?_, ?_⟩⟩
  · simp [handle_sessions]
  · intro i
    simp [handle_sessions, List.getElem?_map]
    rfl
  · intro i
    simp [handle_sessions, List.getElem?_map]
    rfl

/-- Concrete manager for the `sessions_live_count` witness: one index entry
with key `"a"`, whose live session holds two messages. -/
def witnessMgr2 : SessionManager :=
  { list_sessions := [⟨some "a", none, none⟩]
    get_or_create := fun _ => ⟨[⟨none, none, none, none⟩, ⟨none, none, none, none⟩]⟩ }

/-- Witness for `sessions_live_count`: the single summary reports the live
count 2. -/
theorem sessions_live_count_witness :
    ((handle_sessions (some witnessMgr2)).2[0]?).map SessionSummary.messages = some 2 := by
  have h := (sessions_live_count.2 witnessMgr2).2.2.1 0
  rw [h]
  simp [witnessMgr2]

/-- Python `int()` applied to a real number: truncation toward zero
(floor for non-negative arguments, ceiling for negative ones).  Clock
readings are modelled as exact rationals. -/
def py_int (x : ℚ) : Int :=
  if 0 ≤ x then ⌊x⌋ else ⌈x⌉

/-- The elapsed-seconds computation of `AdminServer._handle_status`:
`uptime = int(time.time() - _START_TIME)`, with `now = time.time()` and
`started = _START_TIME`.  Note the source applies no clamping. -/
def uptime_seconds (now started : ℚ) : Int :=
  py_int (now - started)

/-- C4 counterexample — the claim that the elapsed-seconds computation is
`≥ 0` for every pair fails: at `now = 0`, `startedAt = 10` the source's
`int(now - startedAt)` is `-10 < 0`. -/
theorem uptime_seconds_negative_counterexample :
    uptime_seconds 0 10 = -10 ∧ uptime_seconds 0 10 < 0 := by
  have h : uptime_seconds 0 10 = -10 := by
    rw [uptime_seconds, py_int, if_neg (by norm_num)]
    rw [show (0 : ℚ) - 10 = ((-10 : Int) : ℚ) by norm_num]
    exact Int.ceil_intCast _
  exact ⟨h, by rw [h]; norm_num⟩

/-- C4 amended — the computation is `int(now - startedAt)` truncated toward
zero, with no clamping: it is `≥ 0` whenever `startedAt ≤ now`, and it is
negative whenever `now ≤ startedAt - 1`. -/
theorem uptime_seconds_truncation (now started : ℚ) :
    (started ≤ now → 0 ≤ uptime_seconds now started) ∧
    (now ≤ started - 1 → uptime_seconds now started < 0) := by
  constructor
  · intro h
    rw [uptime_seconds, py_int, if_pos (by linarith)]
    exact Int.floor_nonneg.mpr (by linarith)
  · intro h
    rw [uptime_seconds, py_int, if_neg (by intro hc; linarith)]
    have h1 : now - started ≤ -1 := by linarith
    calc ⌈now - started⌉ ≤ ⌈(-1 : ℚ)⌉ := Int.ceil_le_ceil h1
    _ = -1 := by
      rw [show (-1 : ℚ) = ((-1 : Int) : ℚ) by norm_num]
      exact Int.ceil_intCast _
    _ < 0 := by norm_num

/-- Witness for `uptime_seconds_truncation`: non-negative at
`now = 10, started = 3`, negative at `now = 0, started = 10`. -/
theorem uptime_seconds_truncation_witness :
    0 ≤ uptime_seconds 10 3 ∧ uptime_seconds 0 10 < 0 :=
  ⟨(uptime_seconds_truncation 10 3).1 (by norm_num),
   (uptime_seconds_truncation 0 10).2 (by norm_num)⟩

/-- `" ".join(parts)` of `_format_uptime`, over code-point lists. -/
def joinSpace : List (List Char) → List Char
  | [] => []
  | [p] => p
  | p :: ps => p ++ ' ' :: joinSpace ps

/-- `_format_uptime`: decompose by `divmod` with 86400/3600/60, emit a
segment per nonzero unit (`f"{d}d"` is `str(d) + "d"`, and `str` of a
non-negative int is its decimal digits, i.e. `Nat.toDigits 10`), seconds
always, joined by single spaces. -/
def format_uptime (seconds : Nat) : List Char :=
  let d := seconds / 86400
  let rem := seconds % 86400
  let h := rem / 3600
  let rem2 := rem % 3600
  let m := rem2 / 60
  let s := rem2 % 60
  let parts :=
    (if d ≠ 0 then [Nat.toDigits 10 d ++ ['d']] else []) ++
    (if h ≠ 0 then [Nat.toDigits 10 h ++ ['h']] else []) ++
    (if m ≠ 0 then [Nat.toDigits 10 m ++ ['m']] else []) ++
    [Nat.toDigits 10 s ++ ['s']]
  joinSpace parts

/-- Value of a decimal digit character. -/
def digitVal (c : Char) : Nat := c.toNat - '0'.toNat

/-- Decimal reading of a digit string (the usual left fold). -/
def parseNat (cs : List Char) : Nat := cs.foldl (fun a c => a * 10 + digitVal c) 0

/-- Seconds per unit suffix, the same table as the division rule. -/
def unitVal (c : Char) : Nat :=
  if c = 'd' then 86400
  else if c = 'h' then 3600
  else if c = 'm' then 60
  else if c = 's' then 1
  else 0

/-- Value of one segment `"<digits><unit>"`. -/
def segValue (cs : List Char) : Nat := parseNat cs.dropLast * unitVal (cs.getLastD ' ')

/-- Split a code-point list on a separator character (inverse of joining). -/
def splitChar (sep : Char) : List Char → List (List Char)
  | [] => [[]]
  | c :: cs =>
    match splitChar sep cs with
    | [] => [[]]
    | t :: ts => if c = sep then [] :: t :: ts else (c :: t) :: ts

/-- Re-decompose a formatted duration by the same division rule: split on
spaces and sum `digits × unit-seconds` over the segments. -/
def redecompose (out : List Char) : Nat := ((splitChar ' ' out).map segValue).sum

lemma toDigitsCore_append (b : Nat) : ∀ (f n : Nat) (ds : List Char),
    Nat.toDigitsCore b f n ds = Nat.toDigitsCore b f n [] ++ ds := by
  intro f
  induction f with
  | zero => intro n ds; simp [Nat.toDigitsCore]
  | succ f ih =>
    intro n ds
    simp only [Nat.toDigitsCore]
    by_cases h : n / b = 0
    · simp [h]
    · simp only [h, if_false]
      rw [ih (n / b) [Nat.digitChar (n % b)], ih (n / b) (Nat.digitChar (n % b) :: ds)]
      simp

lemma digitChar_isDigit {k : Nat} (h : k < 10) : (Nat.digitChar k).isDigit := by
  interval_cases k <;> decide

lemma digitVal_digitChar {k : Nat} (h : k < 10) : digitVal (Nat.digitChar k) = k := by
  interval_cases k <;> decide

lemma toDigitsCore_digits : ∀ (f n : Nat) (ds : List Char),
    (∀ c ∈ ds, c.isDigit) → ∀ c ∈ Nat.toDigitsCore 10 f n ds, c.isDigit := by
  intro f
  induction f with
  | zero => intro n ds hds; simpa [Nat.toDigitsCore] using hds
  | succ f ih =>
    intro n ds hds c hc
    simp only [Nat.toDigitsCore] at hc
    by_cases h : n / 10 = 0
    · simp only [h, if_true] at hc
      rcases List.mem_cons.mp hc with rfl | hmem
      · exact digitChar_isDigit (Nat.mod_lt _ (by norm_num))
      · exact hds _ hmem
    · simp only [h, if_false] at hc
      refine ih (n / 10) _ ?_ c hc
      intro c' hc'
      rcases List.mem_cons.mp hc' with rfl | hmem
      · exact digitChar_isDigit (Nat.mod_lt _ (by norm_num))
      · exact hds _ hmem

lemma toDigits_digits (n : Nat) : ∀ c ∈ Nat.toDigits 10 n, c.isDigit :=
  toDigitsCore_digits (n + 1) n [] (by simp)

lemma toDigits_ne_nil (n : Nat) : Nat.toDigits 10 n ≠ [] := by
  show Nat.toDigitsCore 10 (n + 1) n [] ≠ []
  simp only [Nat.toDigitsCore]
  by_cases h : n / 10 = 0
  · simp [h]
  · simp only [h, if_false]
    rw [toDigitsCore_append]
    simp

lemma parseNat_toDigitsCore : ∀ (f n : Nat), n < 10 ^ f →
    parseNat (Nat.toDigitsCore 10 f n []) = n := by
  intro f
  induction f with
  | zero => intro n hn; interval_cases n; rfl
  | succ f ih =>
    intro n hn
    simp only [Nat.toDigitsCore]
    by_cases h : n / 10 = 0
    · simp only [h, if_true]
      have h10 : n < 10 := by omega
      have hmod : n % 10 = n := Nat.mod_eq_of_lt h10
      rw [hmod]
      simp [parseNat, digitVal_digitChar h10]
    · simp only [h, if_false]
      rw [toDigitsCore_append]
      have hdiv : n / 10 < 10 ^ f := by
        have : 10 ^ (f + 1) = 10 ^ f * 10 := by ring
        omega
      have hrec := ih (n / 10) hdiv
      simp only [parseNat, List.foldl_append, List.foldl_cons, List.foldl_nil] at *
      rw [hrec, digitVal_digitChar (Nat.mod_lt n (by norm_num) : n % 10 < 10)]
      omega

lemma parseNat_toDigits (n : Nat) : parseNat (Nat.toDigits 10 n) = n := by
  refine parseNat_toDigitsCore (n + 1) n ?_
  calc n < 10 ^ n := Nat.lt_pow_self (by norm_num) n
  _ ≤ 10 ^ (n + 1) := Nat.pow_le_pow_right (by norm_num) (Nat.le_succ n)

lemma splitChar_prepend (sep : Char) : ∀ (p l t : List Char) (ts : List (List Char)),
    sep ∉ p → splitChar sep l = t :: ts → splitChar sep (p ++ l) = (p ++ t) :: ts := by
  intro p
  induction p with
  | nil => intro l t ts _ h; simpa using h
  | cons c p' ih =>
    intro l t ts hmem h
    simp only [List.mem_cons, not_or] at hmem
    have hrec := ih l t ts hmem.2 h
    simp only [List.cons_append, splitChar, List.append_eq, hrec]
    rw [if_neg (Ne.symm hmem.1)]

lemma splitChar_joinSpace : ∀ parts : List (List Char), parts ≠ [] →
    (∀ p ∈ parts, ' ' ∉ p) → splitChar ' ' (joinSpace parts) = parts := by
  intro parts
  induction parts with
  | nil => intro h _; exact absurd rfl h
  | cons p rest ih =>
    intro _ hp
    cases rest with
    | nil =>
      have h := splitChar_prepend ' ' p [] [] [] (hp p (by simp)) (by simp [splitChar])
      simpa [joinSpace] using h
    | cons q ps =>
      have hrec := ih (by simp) (fun x hx => hp x (by simp [hx]))
      have h1 : splitChar ' ' (' ' :: joinSpace (q :: ps)) = [] :: q :: ps := by
        simp only [splitChar, hrec]
        simp
      have h2 := splitChar_prepend ' ' p (' ' :: joinSpace (q :: ps)) [] (q :: ps)
        (hp p (by simp)) h1
      simpa [joinSpace] using h2

lemma space_not_mem_seg (v : Nat) (u : Char) (hu : u ≠ ' ') :
    ' ' ∉ Nat.toDigits 10 v ++ [u] := by
  intro h
  rcases List.mem_append.mp h with h | h
  · exact absurd (toDigits_digits v ' ' h) (by decide)
  · simp at h
    exact hu h.symm

lemma mem_ite_seg {p seg : List Char} {cond : Prop} [Decidable cond]
    (h : p ∈ if cond then [seg] else ([] : List (List Char))) : p = seg := by
  split at h
  · simpa using h
  · simp at h

lemma segValue_concat (v : Nat) (u : Char) :
    segValue (Nat.toDigits 10 v ++ [u]) = v * unitVal u := by
  simp only [segValue, List.dropLast_concat, List.getLastD_concat, parseNat_toDigits]

/-- C5 — Duration formatting: splitting the output of `_format_uptime` on
spaces yields exactly one segment per nonzero unit (seconds always, largest
unit first); re-decomposing the output by the same division rule (digits ×
unit-seconds, summed) reconstructs the input exactly; `format_uptime 0 =
"0s"` and `format_uptime 90061 = "1d 1h 1m 1s"`. -/
theorem format_uptime_roundtrip :
    (∀ s : Nat,
      splitChar ' ' (format_uptime s) =
        (if s / 86400 ≠ 0 then [Nat.toDigits 10 (s / 86400) ++ ['d']] else []) ++
        (if s % 86400 / 3600 ≠ 0 then [Nat.toDigits 10 (s % 86400 / 3600) ++ ['h']] else []) ++
        (if s % 86400 % 3600 / 60 ≠ 0 then [Nat.toDigits 10 (s % 86400 % 3600 / 60) ++ ['m']] else []) ++
        [Nat.toDigits 10 (s % 86400 % 3600 % 60) ++ ['s']]) ∧
    (∀ s : Nat, redecompose (format_uptime s) = s) ∧
    format_uptime 0 = ['0', 's'] ∧
    format_uptime 90061 = ['1', 'd', ' ', '1', 'h', ' ', '1', 'm', ' ', '1', 's'] := by
  have hseg : ∀ s : Nat,
      splitChar ' ' (format_uptime s) =
        (if s / 86400 ≠ 0 then [Nat.toDigits 10 (s / 86400) ++ ['d']] else []) ++
        (if s % 86400 / 3600 ≠ 0 then [Nat.toDigits 10 (s % 86400 / 3600) ++ ['h']] else []) ++
        (if s % 86400 % 3600 / 60 ≠ 0 then [Nat.toDigits 10 (s % 86400 % 3600 / 60) ++ ['m']] else []) ++
        [Nat.toDigits 10 (s % 86400 % 3600 % 60) ++ ['s']] := by
    intro s
    simp only [format_uptime]
    refine splitChar_joinSpace _ ?_ ?_
    · simp
    · intro p hp
      simp only [List.mem_append, List.mem_singleton] at hp
      rcases hp with ((hp | hp) | hp) | hp
      · rw [mem_ite_seg hp]; exact space_not_mem_seg _ 'd' (by decide)
      · rw [mem_ite_seg hp]; exact space_not_mem_seg _ 'h' (by decide)
      · rw [mem_ite_seg hp]; exact space_not_mem_seg _ 'm' (by decide)
      · rw [hp]; exact space_not_mem_seg _ 's' (by decide)
  have hud : unitVal 'd' = 86400 := by decide
  have huh : unitVal 'h' = 3600 := by decide
  have hum : unitVal 'm' = 60 := by decide
  have hus : unitVal 's' = 1 := by decide
  refine ⟨hseg, ?_, by decide, by decide⟩
  intro s
  rw [redecompose, hseg s]
  by_cases hd : s / 86400 = 0 <;>
    by_cases hh : s % 86400 / 3600 = 0 <;>
      by_cases hm : s % 86400 % 3600 / 60 = 0 <;>
        · simp [hd, hh, hm, segValue_concat, hud, huh, hum, hus]
          omega

/-- A filesystem entry as observed by `_build_file_tree`.  A `dir` carries
the entries `iterdir` would yield and whether `iterdir` raises
`PermissionError`; a `file` carries `st_size` (`none` when `stat` raises
`OSError`); `other` is an entry that is neither a directory nor a regular
file at scan time (broken symlink, socket, …). -/
inductive FSEntry where
  | dir (name : String) (entries : List FSEntry) (permDenied : Bool)
  | file (name : String) (size : Option Nat)
  | other (name : String)

def FSEntry.name : FSEntry → String
  | .dir n _ _ => n
  | .file n _ => n
  | .other n => n

/-- `p.is_dir()`. -/
def FSEntry.isDir : FSEntry → Bool
  | .dir .. => true
  | _ => false

/-- A node of the JSON tree returned by `_build_file_tree`: the dict
`{"name": …, "type": …}` with the optional keys `size` (set only for
regular files) and `children` (set only for directories). -/
inductive FileNode where
  | mk (name : String) (type : String) (size : Option Nat) (children : Option (List FileNode))

def FileNode.name : FileNode → String
  | .mk n _ _ _ => n

def FileNode.type : FileNode → String
  | .mk _ t _ _ => t

def FileNode.size : FileNode → Option Nat
  | .mk _ _ s _ => s

def FileNode.children : FileNode → Option (List FileNode)
  | .mk _ _ _ c => c

/-- The comparison underlying
`sorted(root.iterdir(), key=lambda p: (not p.is_dir(), p.name))`:
non-strict lexicographic order on the key pair `(not is_dir, name)` with
`False < True` and case-sensitive code-point order on names. -/
def entryKeyLe (a b : FSEntry) : Bool :=
  (a.isDir && !b.isDir) || ((a.isDir == b.isDir) && decide (a.name ≤ b.name))

/-- `_build_file_tree(root, depth)`.  The recursion terminates for the same
reason as the source's: `depth` decreases by one per recursive call and the
walk stops at `depth <= 0` (or at a non-directory, a `PermissionError`
from `iterdir`, or a childless entry). -/
def build_file_tree (root : FSEntry) (depth : Int) : List FileNode :=
  if h : depth ≤ 0 ∨ root.isDir = false then []
  else
    match root with
    | .dir _ entries permDenied =>
      if permDenied then []
      else
        ((entries.mergeSort entryKeyLe).filter
          (fun e => !(e.name.startsWith "__pycache__"))).map
          (fun e =>
            match e with
            | .dir n sub pd =>
              FileNode.mk n "dir" none (some (build_file_tree (.dir n sub pd) (depth - 1)))
            | .file n sz => FileNode.mk n "file" (some (sz.getD 0)) none
            | .other n => FileNode.mk n "file" none none)
    | .file .. => []
    | .other .. => []
termination_by depth.toNat
decreasing_by
  simp only [not_or] at h
  omega

/-- The loop body of `_build_file_tree` as a function of the entry, at the
depth of the enclosing call (children are built with `depth - 1`). -/
def nodeOf (depth : Int) : FSEntry → FileNode
  | .dir n sub pd =>
    FileNode.mk n "dir" none (some (build_file_tree (.dir n sub pd) (depth - 1)))
  | .file n sz => FileNode.mk n "file" (some (sz.getD 0)) none
  | .other n => FileNode.mk n "file" none none

lemma build_file_tree_terminal {root : FSEntry} {depth : Int}
    (h : depth ≤ 0 ∨ root.isDir = false) : build_file_tree root depth = [] := by
  rw [build_file_tree.eq_def, dif_pos h]

lemma build_file_tree_dir {name : String} {entries : List FSEntry} {pd : Bool} {depth : Int}
    (hd : 0 < depth) :
    build_file_tree (.dir name entries pd) depth =
      if pd then []
      else ((entries.mergeSort entryKeyLe).filter
        (fun e => !(e.name.startsWith "__pycache__"))).map (nodeOf depth) := by
  rw [build_file_tree.eq_def,
    dif_neg (show ¬((depth : Int) ≤ 0 ∨ (FSEntry.dir name entries pd).isDir = false) by
      simp [FSEntry.isDir]; omega)]
  cases pd with
  | true => rfl
  | false =>
    simp only [Bool.false_eq_true, if_false]
    apply List.map_congr_left
    intro e _
    cases e <;> rfl

mutual

/-- Nesting depth of a node: a node with no (or empty) `children` has
height 1; a directory node is one deeper than its deepest child. -/
def nodeHeight : FileNode → Nat
  | .mk _ _ _ none => 1
  | .mk _ _ _ (some cs) => 1 + listHeight cs

/-- Height of a level of the tree: maximum node height (0 for `[]`). -/
def listHeight : List FileNode → Nat
  | [] => 0
  | n :: ns => max (nodeHeight n) (listHeight ns)

end

/-- Output-side ordering: directories (`type = "dir"`) before everything
else, and within the same group non-strict name order. -/
def nodeLe (a b : FileNode) : Bool :=
  (decide (a.type = "dir") && !(decide (b.type = "dir"))) ||
    ((decide (a.type = "dir") == decide (b.type = "dir")) && decide (a.name ≤ b.name))

mutual

/-- Every level of the subtree rooted at this node is ordered by `nodeLe`. -/
def orderedNode : FileNode → Bool
  | .mk _ _ _ none => true
  | .mk _ _ _ (some cs) => orderedList cs

/-- Adjacent entries are `nodeLe`-ordered and all subtrees are ordered. -/
def orderedList : List FileNode → Bool
  | [] => true
  | [n] => orderedNode n
  | a :: b :: rest => nodeLe a b && orderedNode a && orderedList (b :: rest)

end

mutual

/-- No node in this subtree has a name starting with `"__pycache__"`. -/
def cleanNode : FileNode → Bool
  | .mk n _ _ none => !(n.startsWith "__pycache__")
  | .mk n _ _ (some cs) => !(n.startsWith "__pycache__") && cleanList cs

/-- No node in this forest has a name starting with `"__pycache__"`. -/
def cleanList : List FileNode → Bool
  | [] => true
  | n :: ns => cleanNode n && cleanList ns

end

/-- C3 — Depth bound: the snapshot is empty whenever `depth ≤ 0` or the
root is not a directory, and no node of the returned tree lies deeper than
`depth` levels below the root (`listHeight ≤ toNat depth`); the
depth-decrementing recursion is what bounds the walk. -/
theorem file_tree_depth_bound (root : FSEntry) (depth : Int) :
    ((depth ≤ 0 ∨ root.isDir = false) → build_file_tree root depth = []) ∧
    listHeight (build_file_tree root depth) ≤ depth.toNat := by
  have H : ∀ k : Nat, ∀ (r : FSEntry) (d : Int), d.toNat ≤ k →
      listHeight (build_file_tree r d) ≤ d.toNat := by
    intro k
    induction k with
    | zero =>
      intro r d hk
      rw [build_file_tree_terminal (Or.inl (by omega))]
      simp [listHeight]
    | succ k ih =>
      intro r d hk
      by_cases h0 : d ≤ 0
      · rw [build_file_tree_terminal (Or.inl h0)]
        simp [listHeight]
      · cases r with
        | file n sz => rw [@build_file_tree_terminal (.file n sz) d (Or.inr rfl)]; simp [listHeight]
        | other n => rw [@build_file_tree_terminal (.other n) d (Or.inr rfl)]; simp [listHeight]
        | dir n entries pd =>
          rw [build_file_tree_dir (by omega)]
          by_cases hpd : pd = true
          · rw [if_pos hpd]; simp [listHeight]
          · rw [if_neg hpd]
            have hlist : ∀ l : List FSEntry, listHeight (l.map (nodeOf d)) ≤ d.toNat := by
              intro l
              induction l with
              | nil => simp [listHeight]
              | cons e es ihl =>
                simp only [List.map_cons, listHeight]
                refine max_le ?_ ihl
                cases e with
                | dir n2 sub pd2 =>
                  simp only [nodeOf, nodeHeight]
                  have hrec := ih (.dir n2 sub pd2) (d - 1) (by omega)
                  omega
                | file n2 sz2 => simp only [nodeOf, nodeHeight]; omega
                | other n2 => simp only [nodeOf, nodeHeight]; omega
            exact hlist _
  exact ⟨fun h => build_file_tree_terminal h, H depth.toNat root depth le_rfl⟩

/-- Witness for `file_tree_depth_bound`: a non-directory root yields `[]`
even at positive depth. -/
theorem file_tree_depth_bound_witness :
    build_file_tree (.file "a" none) 5 = [] :=
  (file_tree_depth_bound (.file "a" none) 5).1 (Or.inr rfl)

lemma entryKeyLe_trans : ∀ (a b c : FSEntry),
    entryKeyLe a b → entryKeyLe b c → entryKeyLe a c := by
  intro a b c h1 h2
  simp only [entryKeyLe, Bool.or_eq_true, Bool.and_eq_true, Bool.not_eq_true',
    beq_iff_eq, decide_eq_true_eq] at h1 h2 ⊢
  rcases h1 with ⟨ha, hb⟩ | ⟨hab, hn1⟩ <;> rcases h2 with ⟨hb', hc⟩ | ⟨hbc, hn2⟩
  · rw [hb] at hb'; exact absurd hb' (by simp)
  · exact Or.inl ⟨ha, hbc ▸ hb⟩
  · exact Or.inl ⟨hab.trans hb', hc⟩
  · exact Or.inr ⟨hab.trans hbc, le_trans hn1 hn2⟩

lemma entryKeyLe_total : ∀ (a b : FSEntry), entryKeyLe a b || entryKeyLe b a := by
  intro a b
  rcases le_total a.name b.name with h | h <;>
    cases ha : a.isDir <;> cases hb : b.isDir <;>
      simp [entryKeyLe, ha, hb, h]

lemma nodeLe_nodeOf (d : Int) (a b : FSEntry) (h : entryKeyLe a b) :
    nodeLe (nodeOf d a) (nodeOf d b) := by
  have hdd : (("dir" : String) = "dir") = True := by simp
  have hfd : (("file" : String) = "dir") = False := by
    simp only [eq_iff_iff, iff_false]
    decide
  cases a <;> cases b <;>
    simp_all [entryKeyLe, nodeLe, nodeOf, FSEntry.isDir, FSEntry.name,
      FileNode.type, FileNode.name]

lemma orderedList_of : ∀ l : List FileNode,
    List.Pairwise (fun a b => nodeLe a b = true) l →
    (∀ n ∈ l, orderedNode n = true) → orderedList l = true := by
  intro l
  induction l with
  | nil => intro _ _; rfl
  | cons a rest ih =>
    intro hp hn
    cases rest with
    | nil => simpa [orderedList] using hn a (by simp)
    | cons b rest' =>
      simp only [orderedList, Bool.and_eq_true]
      obtain ⟨h1, h2⟩ := List.pairwise_cons.mp hp
      exact ⟨⟨h1 b (by simp), hn a (by simp)⟩, ih h2 (fun x hx => hn x (by simp [hx]))⟩

lemma cleanList_forall : ∀ l : List FileNode,
    (∀ n ∈ l, cleanNode n = true) → cleanList l = true := by
  intro l
  induction l with
  | nil => intro _; rfl
  | cons a rest ih =>
    intro hn
    simp only [cleanList, Bool.and_eq_true]
    exact ⟨hn a (by simp), ih (fun x hx => hn x (by simp [hx]))⟩

/-- C6 — At every level of the returned tree, directory nodes precede
file nodes and each group is in non-strict name order (`orderedList`), and
no node anywhere has a name starting with `"__pycache__"` (`cleanList`). -/
theorem file_tree_sorted_excluded (root : FSEntry) (depth : Int) :
    orderedList (build_file_tree root depth) = true ∧
    cleanList (build_file_tree root depth) = true := by
  have H : ∀ k : Nat, ∀ (r : FSEntry) (d : Int), d.toNat ≤ k →
      orderedList (build_file_tree r d) = true ∧ cleanList (build_file_tree r d) = true := by
    intro k
    induction k with
    | zero =>
      intro r d hk
      rw [build_file_tree_terminal (Or.inl (by omega))]
      exact ⟨rfl, rfl⟩
    | succ k ih =>
      intro r d hk
      by_cases h0 : d ≤ 0
      · rw [build_file_tree_terminal (Or.inl h0)]; exact ⟨rfl, rfl⟩
      · cases r with
        | file n sz =>
          rw [@build_file_tree_terminal (.file n sz) d (Or.inr rfl)]; exact ⟨rfl, rfl⟩
        | other n =>
          rw [@build_file_tree_terminal (.other n) d (Or.inr rfl)]; exact ⟨rfl, rfl⟩
        | dir n entries pd =>
          rw [build_file_tree_dir (by omega)]
          by_cases hpd : pd = true
          · rw [if_pos hpd]; exact ⟨rfl, rfl⟩
          · rw [if_neg hpd]
            have hOrderedNodes : ∀ e ∈ (entries.mergeSort entryKeyLe).filter
                (fun e => !(e.name.startsWith "__pycache__")), orderedNode (nodeOf d e) = true := by
              intro e _
              cases e with
              | dir n2 sub pd2 =>
                have hrec := (ih (.dir n2 sub pd2) (d - 1) (by omega)).1
                simpa [nodeOf, orderedNode] using hrec
              | file n2 sz2 => simp [nodeOf, orderedNode]
              | other n2 => simp [nodeOf, orderedNode]
            have hCleanNodes : ∀ e ∈ (entries.mergeSort entryKeyLe).filter
                (fun e => !(e.name.startsWith "__pycache__")), cleanNode (nodeOf d e) = true := by
              intro e he
              have hpred := List.of_mem_filter he
              cases e with
              | dir n2 sub pd2 =>
                have hrec := (ih (.dir n2 sub pd2) (d - 1) (by omega)).2
                simp only [nodeOf, cleanNode, Bool.and_eq_true]
                exact ⟨by simpa [FSEntry.name] using hpred, hrec⟩
              | file n2 sz2 => simpa [nodeOf, cleanNode, FSEntry.name] using hpred
              | other n2 => simpa [nodeOf, cleanNode, FSEntry.name] using hpred
            have hPairwise : List.Pairwise (fun a b : FileNode => nodeLe a b = true)
                (((entries.mergeSort entryKeyLe).filter
                  (fun e => !(e.name.startsWith "__pycache__"))).map (nodeOf d)) := by
              rw [List.pairwise_map]
              have hs : List.Pairwise (fun a b => entryKeyLe a b = true)
                  ((entries.mergeSort entryKeyLe).filter
                    (fun e => !(e.name.startsWith "__pycache__"))) :=
                List.Pairwise.sublist (List.filter_sublist _)
                  (List.sorted_mergeSort entryKeyLe_trans entryKeyLe_total entries)
              exact hs.imp (fun {a b} h => nodeLe_nodeOf d a b h)
            refine ⟨orderedList_of _ hPairwise ?_, cleanList_forall _ ?_⟩
            · intro x hx
              obtain ⟨e, he, rfl⟩ := List.mem_map.mp hx
              exact hOrderedNodes e he
            · intro x hx
              obtain ⟨e, he, rfl⟩ := List.mem_map.mp hx
              exact hCleanNodes e he
  exact H depth.toNat root depth le_rfl

/-- C8 — Error degradation: a directory whose enumeration raises
`PermissionError` snapshots to the empty sequence at every depth; inside a
readable parent such a directory still appears, as a node with empty
children (the walk succeeds); and a file entry whose size read fails
appears with size 0 instead of failing the subtree. -/
theorem file_tree_error_degradation :
    (∀ (name : String) (entries : List FSEntry) (depth : Int),
      build_file_tree (.dir name entries true) depth = []) ∧
    (∀ (name n : String) (entries sub : List FSEntry) (depth : Int),
      0 < depth → FSEntry.dir n sub true ∈ entries → ¬ n.startsWith "__pycache__" →
      FileNode.mk n "dir" none (some []) ∈ build_file_tree (.dir name entries false) depth) ∧
    (∀ (name n : String) (entries : List FSEntry) (depth : Int),
      0 < depth → FSEntry.file n none ∈ entries → ¬ n.startsWith "__pycache__" →
      FileNode.mk n "file" (some 0) none ∈ build_file_tree (.dir name entries false) depth) := by
  have hdenied : ∀ (name : String) (entries : List FSEntry) (depth : Int),
      build_file_tree (.dir name entries true) depth = [] := by
    intro name entries depth
    by_cases h0 : depth ≤ 0
    · exact build_file_tree_terminal (Or.inl h0)
    · rw [build_file_tree_dir (by omega), if_pos rfl]
  refine ⟨hdenied, ?_, ?_⟩
  · intro name n entries sub depth hd hmem hpy
    rw [build_file_tree_dir hd, if_neg (by simp)]
    refine List.mem_map.mpr ⟨.dir n sub true, ?_, ?_⟩
    · exact List.mem_filter.mpr
        ⟨List.mem_mergeSort.mpr hmem, by simpa [FSEntry.name] using hpy⟩
    · simp [nodeOf, hdenied]
  · intro name n entries depth hd hmem hpy
    rw [build_file_tree_dir hd, if_neg (by simp)]
    refine List.mem_map.mpr ⟨.file n none, ?_, ?_⟩
    · exact List.mem_filter.mpr
        ⟨List.mem_mergeSort.mpr hmem, by simpa [FSEntry.name] using hpy⟩
    · simp [nodeOf]

/-- Witness for `file_tree_error_degradation`: in a readable root holding a
stat-failing file `"a"` and a permission-denied directory `"locked"`, the
snapshot contains the file with size 0 and the directory with empty
children. -/
theorem file_tree_error_degradation_witness :
    FileNode.mk "locked" "dir" none (some []) ∈
      build_file_tree (.dir "root" [.file "a" none, .dir "locked" [] true] false) 3 ∧
    FileNode.mk "a" "file" (some 0) none ∈
      build_file_tree (.dir "root" [.file "a" none, .dir "locked" [] true] false) 3 := by
  constructor
  · exact file_tree_error_degradation.2.1 "root" "locked" _ [] 3 (by norm_num)
      (List.Mem.tail _ (List.Mem.head _)) (by decide)
  · exact file_tree_error_degradation.2.2 "root" "a" _ 3 (by norm_num)
      (List.Mem.head _) (by decide)

/-- C10 — An entry that is neither a directory nor a regular file is not
skipped: it appears in the snapshot as a node of type `"file"` with no
`size` key and no `children` key. -/
theorem file_tree_other_entry (name n : String) (entries : List FSEntry) (depth : Int)
    (hd : 0 < depth) (hmem : FSEntry.other n ∈ entries)
    (hpy : ¬ n.startsWith "__pycache__") :
    FileNode.mk n "file" none none ∈ build_file_tree (.dir name entries false) depth ∧
    (FileNode.mk n "file" none none).type = "file" ∧
    (FileNode.mk n "file" none none).size = none ∧
    (FileNode.mk n "file" none none).children = none := by
  refine ⟨?_, rfl, rfl, rfl⟩
  rw [build_file_tree_dir hd, if_neg (by simp)]
  refine List.mem_map.mpr ⟨.other n, ?_, ?_⟩
  · exact List.mem_filter.mpr
      ⟨List.mem_mergeSort.mpr hmem, by simpa [FSEntry.name] using hpy⟩
  · simp [nodeOf]

/-- Witness for `file_tree_other_entry`: a socket-like entry `"sock"`
appears as a sizeless, childless `"file"` node. -/
theorem file_tree_other_entry_witness :
    FileNode.mk "sock" "file" none none ∈
      build_file_tree (.dir "root" [.other "sock"] false) 3 :=
  (file_tree_other_entry "root" "sock" [.other "sock"] 3 (by norm_num)
    (List.Mem.head _) (by decide)).1
